import Mathlib

/-!
Verification development for the FalconMC networking core.

The definitions below are a shallow embedding of the Rust sources:

* `src/falcon_protocol/falcon_protocol_core/src/check.rs`
  (`LitIntValue`, `LitIntBool`, `PacketVersions`, `VersionMappings`);
  the Rust `HashMap` is modelled as an association list in insertion
  order (the map key `LitIntBool` hashes and compares by `value` only,
  so the model keys entries by `LitIntValue`); `emit_error!` is
  modelled by accumulating a list of `Diag` values.
* `src/falcon_core/src/network.rs` (`Phase`, `NetworkState`).
* `src/falcon_network/src/connection.rs` (`FalconConnection::start`:
  one iteration of the `tokio::select!` loop becomes `connStep`, a
  whole run becomes `connRun`).
* `src/crates/core/src/server/mod.rs` and
  `src/crates/logic/src/connection/wrapper.rs` (the task-queue handles;
  an mpsc sender whose receiver may be gone is a `Queue` with an
  `isOpen` flag).
-/

/-! ## check.rs : data -/

/-- `LitIntValue` from check.rs: an explicit number or the wildcard `_`. -/
inductive LitIntValue where
  | number (n : Int)
  | any
deriving DecidableEq, Repr

/-- `LitIntBool` from check.rs: a value with its source span (modelled as a
`Nat`) and the `toggle` ("reported") flag. Rust `PartialEq`/`Hash` use only
`value`; `logical_eq` is `LitIntBool.logicalEq` below. -/
structure LitIntBool where
  value : LitIntValue
  span : Nat
  toggle : Bool
deriving DecidableEq, Repr

/-- `LitIntBool::is_true`. -/
def LitIntBool.is_true (v : LitIntBool) : Bool := v.toggle

/-- `LitIntBool::logical_eq`: the wildcard matches every value, a number
matches a number only when equal and also matches the wildcard. -/
def LitIntBool.logicalEq (a b : LitIntBool) : Bool :=
  match a.value with
  | .any => true
  | .number n =>
    match b.value with
    | .number m => n == m
    | .any => true

/-- One diagnostic produced by `emit_error!`: the span it points at and the
message. -/
structure Diag where
  span : Nat
  msg : String
deriving DecidableEq, Repr

/-- Message of the within-kind conflict in `PacketVersions::insert`
(the typo is in the source). -/
def insertMsg : String := "The same packet has multiple ids for the this version"

/-- Message of the cross-kind conflict in
`VersionMappings::validate_mappings`. -/
def validateMsg : String := "Different packets share the same id for this version"

/-- The entries of one `PacketVersions` map: id value ↦ stored versions. -/
abbrev Entries := List (LitIntValue × List LitIntBool)

/-- `PacketVersions` from check.rs, its `HashMap` as an association list. -/
structure PacketVersions where
  mappings : Entries
deriving DecidableEq, Repr

/-! ## check.rs : PacketVersions::insert -/

/-- The body of `versions.iter_mut().find(|v| v.logical_eq(&version))`
followed by the conditional `emit_error!`/`toggle` calls, for one stored
vector: returns the updated vector, the updated incoming `version`, and the
diagnostics emitted (first at the stored entry's span when it was not yet
flagged, then at the incoming version's span). -/
def visitVersions (version : LitIntBool) :
    List LitIntBool → List LitIntBool × LitIntBool × List Diag
  | [] => ([], version, [])
  | v :: rest =>
    if v.logicalEq version then
      let d1 : List Diag := if !v.is_true then [⟨v.span, insertMsg⟩] else []
      let v' : LitIntBool := if !v.is_true then { v with toggle := !v.toggle } else v
      (v' :: rest, { version with toggle := !version.toggle },
        d1 ++ [⟨version.span, insertMsg⟩])
    else
      let r := visitVersions version rest
      (v :: r.1, r.2.1, r.2.2)

/-- The `self.mappings.iter_mut().filter(|(&p, _)| p != id).for_each(...)`
loop of `PacketVersions::insert`, for one incoming `version`. -/
def insertLoop (id version : LitIntBool) :
    Entries → Entries × LitIntBool × List Diag
  | [] => ([], version, [])
  | (p, vs) :: rest =>
    if p == id.value then
      let r := insertLoop id version rest
      ((p, vs) :: r.1, r.2.1, r.2.2)
    else
      let m := visitVersions version vs
      let r := insertLoop id m.2.1 rest
      ((p, m.1) :: r.1, r.2.1, m.2.2 ++ r.2.2)

/-- `Vec::contains(&version)` on stored versions; Rust `PartialEq` of
`LitIntBool` compares only `value`. -/
def containsVal (vs : List LitIntBool) (version : LitIntBool) : Bool :=
  vs.any (fun v => v.value == version.value)

/-- `self.mappings.entry(id).or_default()` followed by the
`contains`-guarded `push`: returns the updated entries and whether the
version was pushed. -/
def pushEntry (id version : LitIntBool) : Entries → Entries × Bool
  | [] => ([(id.value, [version])], true)
  | (p, vs) :: rest =>
    if p == id.value then
      if containsVal vs version then ((p, vs) :: rest, false)
      else ((p, vs ++ [version]) :: rest, true)
    else
      let r := pushEntry id version rest
      ((p, vs) :: r.1, r.2)

/-- The body of `PacketVersions::insert` for one incoming version: run the
conflict loop, then store the version when it is not flagged and not already
present. The middle component is what this version contributed to `result`. -/
def insertOne (id version : LitIntBool) (e : Entries) :
    Entries × List LitIntBool × List Diag :=
  let m := insertLoop id version e
  if !m.2.1.is_true then
    let p := pushEntry id m.2.1 m.1
    (p.1, if p.2 then [m.2.1] else [], m.2.2)
  else
    (m.1, [], m.2.2)

/-- `PacketVersions::insert`: fold `insertOne` over the incoming iterator,
returning the updated map, the `result` vector of newly added versions, and
the emitted diagnostics in order. -/
def PacketVersions.insert (pv : PacketVersions) (id : LitIntBool) :
    List LitIntBool → PacketVersions × List LitIntBool × List Diag
  | [] => (pv, [], [])
  | v :: rest =>
    let m := insertOne id v pv.mappings
    let r := PacketVersions.insert ⟨m.1⟩ id rest
    (r.1, m.2.1 ++ r.2.1, m.2.2 ++ r.2.2)

/-- `PacketVersions::has_id_version`. -/
def PacketVersions.hasIdVersion (pv : PacketVersions) (id version : LitIntBool) : Bool :=
  pv.mappings.any (fun e => e.1 == id.value && e.2.any (fun v => v.logicalEq version))

/-! ## check.rs : VersionMappings::validate_mappings -/

/-- The `mappings` field of one `PacketMappings` entry: a packet id together
with the versions it claims. -/
structure IdMapping where
  id : LitIntBool
  versions : List LitIntBool
deriving DecidableEq, Repr

/-- `PacketMappings` from data.rs (its use in check.rs): the packet kind
(`syn::Type`, modelled as a `String`) with its id mappings. -/
structure PacketMappings where
  ty : String
  mappings : List IdMapping
deriving DecidableEq, Repr

/-- The kind table of `VersionMappings`, again an association list in
insertion order. -/
abbrev KindTable := List (String × PacketVersions)

/-- First-match lookup in the kind table. -/
def lookupKind (ty : String) : KindTable → Option PacketVersions
  | [] => none
  | (t, pv) :: rest => if t == ty then some pv else lookupKind ty rest

/-- Store back the entry for `ty` (update the first match in place, append
when absent), as `entry(ty).or_default()` plus in-place mutation does. -/
def setKind (ty : String) (pv : PacketVersions) : KindTable → KindTable
  | [] => [(ty, pv)]
  | (t, q) :: rest =>
    if t == ty then (t, pv) :: rest else (t, q) :: setKind ty pv rest

/-- The inner `for (_, packet_versions) in result.packet_to_versions.iter()
.filter(|&(t, _)| t != &packet_mapping.ty)` loop of `validate_mappings`, for
one version of the `unique` vector. -/
def crossCheckVersion (ty : String) (id : LitIntBool) (version : LitIntBool) :
    KindTable → LitIntBool × List Diag
  | [] => (version, [])
  | (t, pv) :: rest =>
    if t != ty && pv.hasIdVersion id version && !version.is_true then
      let r := crossCheckVersion ty id { version with toggle := !version.toggle } rest
      (r.1, ⟨version.span, validateMsg⟩ :: r.2)
    else
      crossCheckVersion ty id version rest

/-- The `for version in &mut unique` loop of `validate_mappings`. -/
def crossCheckAll (ty : String) (id : LitIntBool) (table : KindTable) :
    List LitIntBool → List Diag
  | [] => []
  | v :: rest => (crossCheckVersion ty id v table).2 ++ crossCheckAll ty id table rest

/-- One iteration of the inner `for mapping in packet_mapping.mappings` loop
of `validate_mappings`: insert into the kind's own `PacketVersions`, then
cross-check the newly added versions against all other kinds. -/
def validateOne (acc : KindTable × List Diag) (ty : String)
    (id : LitIntBool) (versions : List LitIntBool) : KindTable × List Diag :=
  let pv := (lookupKind ty acc.1).getD ⟨[]⟩
  let m := pv.insert id versions
  let table := setKind ty m.1 acc.1
  (table, acc.2 ++ m.2.2 ++ crossCheckAll ty id table m.2.1)

/-- The inner loop of `validate_mappings` over one kind's mappings. -/
def validateKind (ty : String) : List IdMapping → KindTable × List Diag →
    KindTable × List Diag
  | [], acc => acc
  | m :: rest, acc => validateKind ty rest (validateOne acc ty m.id m.versions)

/-- The outer loop of `validate_mappings`. -/
def validateAll : List PacketMappings → KindTable × List Diag →
    KindTable × List Diag
  | [], acc => acc
  | pm :: rest, acc => validateAll rest (validateKind pm.ty pm.mappings acc)

/-- `VersionMappings::validate_mappings`, returning the built table together
with every diagnostic emitted while building it. -/
def VersionMappings.validateMappings (ms : List PacketMappings) :
    KindTable × List Diag :=
  validateAll ms ([], [])

/-- Specification helper (not in the source): what inserting versions under
an id amounts to when no other id can conflict — append each version whose
value is not yet present. Returns the final vector and the newly appended
versions. -/
def dedupAppend (acc : List LitIntBool) :
    List LitIntBool → List LitIntBool × List LitIntBool
  | [] => (acc, [])
  | v :: vs =>
    if containsVal acc v then dedupAppend acc vs
    else
      let r := dedupAppend (acc ++ [v]) vs
      (r.1, v :: r.2)

/-- The vector stored under an id value (first match; `[]` when absent). -/
def entryVals (id : LitIntValue) : Entries → List LitIntBool
  | [] => []
  | (p, vs) :: rest => if p == id then vs else entryVals id rest

/-- The invariant of C9: under every id, each version value occurs at most
once. -/
def valsNodup (e : Entries) : Prop :=
  ∀ pr ∈ e, ((pr.2).map LitIntBool.value).Nodup

/-! ## falcon_core network.rs -/

/-- `Phase` from falcon_core/src/network.rs. -/
inductive Phase where
  | handshake
  | status
  | login
  | play
  | disconnected
deriving DecidableEq, Repr

/-- `NetworkState` from falcon_core/src/network.rs. -/
structure NetworkState where
  keepalive : Nat
  protocol : Int
  phase : Phase
deriving DecidableEq, Repr

/-- `NetworkState::new`. -/
def NetworkState.new (protocol : Int) : NetworkState :=
  { keepalive := 0, protocol := protocol, phase := .handshake }

/-! ## falcon_network connection.rs : the select loop of
`FalconConnection::start` -/

/-- The part of `FalconConnection` the loop touches: its `NetworkState` and
the number of bytes buffered in the `McWriter` (`writer.has_remaining()` is
`writerRemaining ≠ 0`). -/
structure ConnState where
  state : NetworkState
  writerRemaining : Nat
deriving DecidableEq, Repr

/-- Result of `readhalf.read_buf(&mut reader)`: `Ok(n)` or an I/O error. -/
inductive ReadResult where
  | ok (n : Nat)
  | ioError
deriving DecidableEq, Repr

/-- One readiness event of the `tokio::select!` in `FalconConnection::start`:
the shutdown signal fires, the `write_all_buf` future completes (successfully
or with an error), or `read_buf` completes. -/
inductive Event where
  | shutdown
  | writeDone (ok : Bool)
  | readDone (r : ReadResult)
deriving DecidableEq, Repr

/-- The write branch of the select is guarded by
`if self.writer.has_remaining()`; read and shutdown branches are always
eligible. -/
def Event.enabled (s : ConnState) : Event → Prop
  | .writeDone _ => s.writerRemaining ≠ 0
  | _ => True

/-- Outcome of one loop iteration: continue looping or `break` out. -/
inductive StepResult where
  | cont (s : ConnState)
  | exit (s : ConnState)
deriving DecidableEq, Repr

/-- The connection state carried by a step outcome. -/
def StepResult.toState : StepResult → ConnState
  | .cont s => s
  | .exit s => s

/-- Whether the outcome left the loop. -/
def StepResult.isExit : StepResult → Bool
  | .cont _ => false
  | .exit _ => true

/-- One iteration of the `loop { tokio::select! { ... } }` in
`FalconConnection::start`:

* shutdown → `break`;
* write completed with an error → set phase `Disconnected`, `break`;
  write completed successfully (the whole buffer was flushed) → `break`
  when the phase is already `Disconnected`, otherwise continue;
* read returned `Ok(0)` (peer closed) → set phase `Disconnected`, `break`;
  read returned `Ok(n)` with `n ≠ 0` → drain complete frames (`next_packet`
  is a TODO in the source and changes no loop state), then `break` when the
  writer is empty and the phase is already `Disconnected`;
* read returned an error → it is logged (`// TODO: disconnect`) and the
  loop continues with the state unchanged. -/
def connStep (s : ConnState) : Event → StepResult
  | .shutdown => .exit s
  | .writeDone ok =>
    if ok then
      let s' : ConnState := { s with writerRemaining := 0 }
      if s'.state.phase = .disconnected then .exit s' else .cont s'
    else
      .exit { s with state := { s.state with phase := .disconnected } }
  | .readDone (.ok n) =>
    if n = 0 then
      .exit { s with state := { s.state with phase := .disconnected } }
    else
      if s.writerRemaining = 0 ∧ s.state.phase = .disconnected then .exit s
      else .cont s
  | .readDone .ioError => .cont s

/-- Run the loop over a sequence of readiness events; once an iteration
breaks, later events are ignored. -/
def connRun (s : ConnState) : List Event → ConnState
  | [] => s
  | e :: es =>
    match connStep s e with
    | .exit s' => s'
    | .cont s' => connRun s' es

/-! ## Task-queue handles (ServerWrapper / ConnectionWrapper) -/

/-- The operations `ConnectionWrapper` enqueues onto a connection's task
queue (the closures' intent, by method). -/
inductive ConnectionTask where
  | resetKeepAlive
  | sendPacket
  | syncTask
deriving DecidableEq, Repr

/-- The operations `ServerWrapper` enqueues onto the server's task queue. -/
inductive ServerTask where
  | requestStatus
  | playerLogin
  | loginSuccess
  | playerLeave
  | playerUpdatePosLook
  | playerUpdateViewDistance
  | executeTask
deriving DecidableEq, Repr

/-- An unbounded mpsc sender's view of its queue: `send` succeeds exactly
when the receiver still exists (`isOpen`), appending the item; otherwise the
queue is unchanged and `send` reports failure. -/
structure Queue (α : Type) where
  isOpen : Bool
  items : List α
deriving DecidableEq, Repr

/-- `UnboundedSender::send`: the updated queue and whether the send
succeeded. -/
def Queue.send (q : Queue α) (a : α) : Queue α × Bool :=
  if q.isOpen then ({ q with items := q.items ++ [a] }, true) else (q, false)

/-- `TaskScheduleError` from falcon_core (only the variant `ServerWrapper`
produces). -/
inductive TaskScheduleError where
  | threadSendError
deriving DecidableEq, Repr

/-- `ConnectionWrapper::reset_keep_alive`: `self.link.send(..).ok()` — the
success flag is dropped and the method returns nothing. -/
def ConnectionWrapper.resetKeepAlive (q : Queue ConnectionTask) : Queue ConnectionTask :=
  (q.send .resetKeepAlive).1

/-- `ConnectionWrapper::send_packet`: `self.link.send(..).ok()`. -/
def ConnectionWrapper.sendPacket (q : Queue ConnectionTask) : Queue ConnectionTask :=
  (q.send .sendPacket).1

/-- `ConnectionWrapper::execute_sync`: `self.link.send(..).ok()`. -/
def ConnectionWrapper.executeSync (q : Queue ConnectionTask) : Queue ConnectionTask :=
  (q.send .syncTask).1

/-- The six `ServerActor` trait methods on `ServerWrapper`: each does
`self.link.send(Box::new(..)).ignore()`, dropping the success flag. -/
def ServerWrapper.actorSend (q : Queue ServerTask) (t : ServerTask) : Queue ServerTask :=
  (q.send t).1

/-- `ServerWrapper::execute`: `self.link.send(Box::new(task))
.map_err(|_| TaskScheduleError::ThreadSendError)` — the only handle method
whose return value reports whether the enqueue succeeded. -/
def ServerWrapper.execute (q : Queue ServerTask) :
    Queue ServerTask × Except TaskScheduleError Unit :=
  let r := q.send .executeTask
  (r.1, if r.2 then .ok () else .error .threadSendError)

/-! ## Lemmas on the connection loop -/

/-- One loop iteration can never move the phase away from `Disconnected`:
the only phase assignments in the loop body assign `Disconnected`. -/
theorem connStep_sticky (s : ConnState) (e : Event)
    (h : s.state.phase = .disconnected) :
    (connStep s e).toState.state.phase = .disconnected := by
  cases e with
  | shutdown => simpa [connStep, StepResult.toState] using h
  | writeDone ok =>
    cases ok <;> simp only [connStep] <;> split <;>
      simp [StepResult.toState, h]
  | readDone r =>
    cases r with
    | ok n =>
      simp only [connStep]
      split <;> [skip; split] <;> simp [StepResult.toState, h]
    | ioError => simpa [connStep, StepResult.toState] using h

/-- `Disconnected` is sticky along any run of the loop. -/
theorem connRun_sticky (s : ConnState) (es : List Event)
    (h : s.state.phase = .disconnected) :
    (connRun s es).state.phase = .disconnected := by
  induction es generalizing s with
  | nil => simpa [connRun] using h
  | cons e es ih =>
    have hstep := connStep_sticky s e h
    simp only [connRun]
    cases hc : connStep s e with
    | exit s' => rw [hc] at hstep; exact hstep
    | cont s' => rw [hc] at hstep; exact ih s' hstep

/-! ## Claims C1, C2, C7, C8 -/

/-- C1 (counterexample): with 7 bytes still buffered for writing, a read of
zero bytes makes the loop `break` at once — the iteration exits with the
write buffer still non-empty, refuting "the loop does not terminate while
the outbound write buffer is non-empty". -/
theorem c1_counterexample :
    (connStep ⟨⟨0, 5, .play⟩, 7⟩ (.readDone (.ok 0))).isExit = true ∧
    (connStep ⟨⟨0, 5, .play⟩, 7⟩ (.readDone (.ok 0))).toState.writerRemaining = 7 ∧
    (connStep ⟨⟨0, 5, .play⟩, 7⟩ (.readDone (.ok 0))).toState.state.phase
      = .disconnected := by
  refine ⟨rfl, rfl, rfl⟩

/-- C1 (amended): a read of zero bytes forces the phase to `Disconnected`
and exits the loop immediately, whatever the phase was and however many
bytes are still buffered for writing; pending writes are not drained on
this path. -/
theorem c1_amended_zero_read_exits_immediately (s : ConnState) :
    connStep s (.readDone (.ok 0)) =
      .exit { s with state := { s.state with phase := .disconnected } } := rfl

/-- C2: at the failing input (a transport read error while in `Play`), the
loop only logs (`// TODO: disconnect` in the source) and continues with the
state unchanged — the phase is not forced to `Disconnected` as the claim
and the source's own TODO say it should be. -/
theorem c2_read_error_leaves_phase_unchanged :
    connStep ⟨⟨0, 5, .play⟩, 0⟩ (.readDone .ioError)
      = .cont ⟨⟨0, 5, .play⟩, 0⟩ := rfl

/-- C7 (counterexample): `ServerWrapper::execute` on a closed queue does
surface the enqueue failure to the caller, as
`Err(TaskScheduleError::ThreadSendError)` — refuting "every handle method
returns as if it succeeded regardless of whether the send succeeded". -/
theorem c7_counterexample :
    (ServerWrapper.execute ⟨false, []⟩).2 = .error .threadSendError := rfl

/-- C7 (amended): when the target queue is closed, every `ConnectionWrapper`
method and every `ServerActor` trait method on `ServerWrapper` silently
discards the operation (the queue is unchanged and nothing is surfaced),
while `ServerWrapper::execute` — the one exception — returns
`Err(TaskScheduleError::ThreadSendError)`. -/
theorem c7_amended_closed_queue_behaviour
    (q : Queue ConnectionTask) (q' : Queue ServerTask)
    (h : q.isOpen = false) (h' : q'.isOpen = false) :
    ConnectionWrapper.resetKeepAlive q = q ∧
    ConnectionWrapper.sendPacket q = q ∧
    ConnectionWrapper.executeSync q = q ∧
    (∀ t, ServerWrapper.actorSend q' t = q') ∧
    (ServerWrapper.execute q').1 = q' ∧
    (ServerWrapper.execute q').2 = .error .threadSendError := by
  refine ⟨?_, ?_, ?_, fun t => ?_, ?_, ?_⟩ <;>
    simp [ConnectionWrapper.resetKeepAlive, ConnectionWrapper.sendPacket,
      ConnectionWrapper.executeSync, ServerWrapper.actorSend,
      ServerWrapper.execute, Queue.send, h, h']

/-- Witness for C7 (amended) at concrete closed queues. -/
theorem c7_amended_witness :
    ConnectionWrapper.resetKeepAlive ⟨false, [.sendPacket]⟩ = ⟨false, [.sendPacket]⟩ ∧
    (ServerWrapper.execute ⟨false, [.playerLeave]⟩).2 = .error .threadSendError := by
  have h := c7_amended_closed_queue_behaviour
    ⟨false, [.sendPacket]⟩ ⟨false, [.playerLeave]⟩ rfl rfl
  exact ⟨h.1, h.2.2.2.2.2⟩

/-- C8: a fresh `NetworkState` has phase `Handshake`, keepalive `0` and the
given protocol version; and once the phase is `Disconnected`, no later
iteration of the connection loop sets it to any other value. -/
theorem c8_initial_handshake_and_disconnected_sticky :
    (∀ p : Int, NetworkState.new p = ⟨0, p, .handshake⟩) ∧
    (∀ (s : ConnState) (es : List Event), s.state.phase = .disconnected →
      (connRun s es).state.phase = .disconnected) :=
  ⟨fun _ => rfl, fun s es h => connRun_sticky s es h⟩

/-- Witness for C8 at protocol 47 and a concrete disconnected run. -/
theorem c8_witness :
    NetworkState.new 47 = ⟨0, 47, .handshake⟩ ∧
    (connRun ⟨⟨0, 47, .disconnected⟩, 3⟩
      [.readDone (.ok 5), .writeDone true, .readDone .ioError]).state.phase
      = .disconnected :=
  ⟨c8_initial_handshake_and_disconnected_sticky.1 47,
   c8_initial_handshake_and_disconnected_sticky.2 _ _ rfl⟩

/-! ## Lemmas on the dispatch-table validation -/

/-- A stored explicit number logically matches the wildcard. -/
theorem logicalEq_number_any (v w : LitIntBool) (n : Int)
    (hv : v.value = .number n) (hw : w.value = .any) :
    v.logicalEq w = true := by
  simp [LitIntBool.logicalEq, hv, hw]

/-- Two equal explicit numbers logically match. -/
theorem logicalEq_number_number (v w : LitIntBool) (n : Int)
    (hv : v.value = .number n) (hw : w.value = .number n) :
    v.logicalEq w = true := by
  simp [LitIntBool.logicalEq, hv, hw]

/-- Symbolic evaluation of `validate_mappings` on a single kind with two id
mappings of one version each, whose versions logically match: the first
version is stored then flagged, the second is reported and dropped, and both
spans are diagnosed with the within-kind message. -/
theorem validate_one_kind_conflict (ty : String) (idA idB v w : LitIntBool)
    (hid : (idA.value == idB.value) = false)
    (hl : v.logicalEq w = true)
    (hvt : v.toggle = false) (hwt : w.toggle = false) :
    VersionMappings.validateMappings [⟨ty, [⟨idA, [v]⟩, ⟨idB, [w]⟩]⟩]
      = ([(ty, ⟨[(idA.value, [{ v with toggle := true }])]⟩)],
         [⟨v.span, insertMsg⟩, ⟨w.span, insertMsg⟩]) := by
  simp [VersionMappings.validateMappings, validateAll, validateKind, validateOne,
    lookupKind, setKind, PacketVersions.insert, insertOne, insertLoop,
    visitVersions, pushEntry, containsVal, crossCheckAll, crossCheckVersion,
    LitIntBool.is_true, hid, hl, hvt, hwt]

/-! ## Claims C4 and C5 -/

/-- C4 (counterexample): a single packet kind mapping explicit version `5`
to id `1` and the wildcard to id `2` does emit diagnostics — `logical_eq`
lets the wildcard match the explicitly claimed version of the same kind —
refuting "validation accepts, without emitting any diagnostic". -/
theorem c4_counterexample :
    (VersionMappings.validateMappings
      [⟨"A", [⟨⟨.number 1, 0, false⟩, [⟨.number 5, 1, false⟩]⟩,
              ⟨⟨.number 2, 2, false⟩, [⟨.any, 3, false⟩]⟩]⟩]).2
      = [⟨1, insertMsg⟩, ⟨3, insertMsg⟩] := rfl

/-- C4 (amended): in the code, a wildcard version set matches every version,
including the ones explicitly claimed by the same kind; a single kind that
maps an explicit version to one id and the wildcard to a different id is
therefore rejected: validation emits the within-kind conflict diagnostic at
both spans and drops the wildcard mapping. -/
theorem c4_amended_wildcard_conflicts_with_own_explicit
    (ty : String) (idA idB v w : LitIntBool) (n : Int)
    (hid : idA.value ≠ idB.value) (hv : v.value = .number n)
    (hw : w.value = .any) (hvt : v.toggle = false) (hwt : w.toggle = false) :
    VersionMappings.validateMappings [⟨ty, [⟨idA, [v]⟩, ⟨idB, [w]⟩]⟩]
      = ([(ty, ⟨[(idA.value, [{ v with toggle := true }])]⟩)],
         [⟨v.span, insertMsg⟩, ⟨w.span, insertMsg⟩]) :=
  validate_one_kind_conflict ty idA idB v w
    (by simpa using hid) (logicalEq_number_any v w n hv hw) hvt hwt

/-- Witness for C4 (amended) at the concrete counterexample input. -/
theorem c4_amended_witness :
    VersionMappings.validateMappings
      [⟨"A", [⟨⟨.number 1, 0, false⟩, [⟨.number 5, 1, false⟩]⟩,
              ⟨⟨.number 2, 2, false⟩, [⟨.any, 3, false⟩]⟩]⟩]
      = ([("A", ⟨[(.number 1, [⟨.number 5, 1, true⟩])]⟩)],
         [⟨1, insertMsg⟩, ⟨3, insertMsg⟩]) :=
  c4_amended_wildcard_conflicts_with_own_explicit "A"
    ⟨.number 1, 0, false⟩ ⟨.number 2, 2, false⟩
    ⟨.number 5, 1, false⟩ ⟨.any, 3, false⟩ 5 (by decide) rfl rfl rfl rfl

/-- C5: a single kind mapping the same version value to two different ids is
diagnosed during insertion (the within-kind message at both offending
spans), and the later-inserted conflicting version is not added to the
kind's final mappings: the final table holds only the first id's entry. -/
theorem c5_same_version_two_ids_rejected
    (ty : String) (idA idB v w : LitIntBool) (n : Int)
    (hid : idA.value ≠ idB.value) (hv : v.value = .number n)
    (hw : w.value = .number n) (hvt : v.toggle = false) (hwt : w.toggle = false) :
    VersionMappings.validateMappings [⟨ty, [⟨idA, [v]⟩, ⟨idB, [w]⟩]⟩]
      = ([(ty, ⟨[(idA.value, [{ v with toggle := true }])]⟩)],
         [⟨v.span, insertMsg⟩, ⟨w.span, insertMsg⟩]) :=
  validate_one_kind_conflict ty idA idB v w
    (by simpa using hid) (logicalEq_number_number v w n hv hw) hvt hwt

/-- Witness for C5: version 5 mapped to ids 1 and 2 by one kind. -/
theorem c5_witness :
    VersionMappings.validateMappings
      [⟨"A", [⟨⟨.number 1, 0, false⟩, [⟨.number 5, 1, false⟩]⟩,
              ⟨⟨.number 2, 2, false⟩, [⟨.number 5, 3, false⟩]⟩]⟩]
      = ([("A", ⟨[(.number 1, [⟨.number 5, 1, true⟩])]⟩)],
         [⟨1, insertMsg⟩, ⟨3, insertMsg⟩]) :=
  c5_same_version_two_ids_rejected "A"
    ⟨.number 1, 0, false⟩ ⟨.number 2, 2, false⟩
    ⟨.number 5, 1, false⟩ ⟨.number 5, 3, false⟩ 5 (by decide) rfl rfl rfl rfl

/-! ## Claim C10 -/

/-- C10: the cross-kind conflict check only toggles the local copies held in
the `unique` vector; it never removes or alters entries already stored in
`packet_to_versions`. End to end on two kinds claiming the same id for the
same version: the conflict is diagnosed (one cross-kind diagnostic at the
later entry's span) and both conflicting (id, version) entries remain in
the returned table, unaltered. -/
theorem c10_cross_conflict_leaves_entries
    (tyA tyB : String) (idA idB v w : LitIntBool) (n : Int)
    (hty : tyA ≠ tyB) (hid : idA.value = idB.value)
    (hv : v.value = .number n) (hw : w.value = .number n)
    (hvt : v.toggle = false) (hwt : w.toggle = false) :
    VersionMappings.validateMappings [⟨tyA, [⟨idA, [v]⟩]⟩, ⟨tyB, [⟨idB, [w]⟩]⟩]
      = ([(tyA, ⟨[(idA.value, [v])]⟩), (tyB, ⟨[(idB.value, [w])]⟩)],
         [⟨w.span, validateMsg⟩]) := by
  simp [VersionMappings.validateMappings, validateAll, validateKind, validateOne,
    lookupKind, setKind, PacketVersions.insert, insertOne, insertLoop,
    visitVersions, pushEntry, containsVal, crossCheckAll, crossCheckVersion,
    PacketVersions.hasIdVersion, LitIntBool.is_true, LitIntBool.logicalEq,
    hty, Ne.symm hty, hid, hv, hw, hvt, hwt]

/-- Witness for C10: kinds "A" and "B", id 1, version 5. -/
theorem c10_witness :
    VersionMappings.validateMappings
      [⟨"A", [⟨⟨.number 1, 0, false⟩, [⟨.number 5, 1, false⟩]⟩]⟩,
       ⟨"B", [⟨⟨.number 1, 2, false⟩, [⟨.number 5, 3, false⟩]⟩]⟩]
      = ([("A", ⟨[(.number 1, [⟨.number 5, 1, false⟩])]⟩),
          ("B", ⟨[(.number 1, [⟨.number 5, 3, false⟩])]⟩)],
         [⟨3, validateMsg⟩]) :=
  c10_cross_conflict_leaves_entries "A" "B"
    ⟨.number 1, 0, false⟩ ⟨.number 1, 2, false⟩
    ⟨.number 5, 1, false⟩ ⟨.number 5, 3, false⟩ 5
    (by decide) rfl rfl rfl rfl rfl

/-! ## Claim C6 -/

/-- Once the incoming version is flagged, the cross-kind loop emits nothing
further: the `!version.is_true()` guard fails at every remaining kind. -/
theorem crossCheckVersion_flagged (ty : String) (id : LitIntBool)
    (version : LitIntBool) (h : version.toggle = true) :
    ∀ table : KindTable, crossCheckVersion ty id version table = (version, [])
  | [] => rfl
  | (t, pv) :: rest => by
    simp [crossCheckVersion, LitIntBool.is_true, h,
      crossCheckVersion_flagged ty id version h rest]

/-- The cross-kind loop reports one version at most once, however many other
kinds conflict with it: the first report toggles the flag and the guard
blocks all later reports. -/
theorem crossCheckVersion_diags_length_le_one (ty : String) (id : LitIntBool) :
    ∀ (version : LitIntBool) (table : KindTable),
      ((crossCheckVersion ty id version table).2).length ≤ 1 := by
  intro version table
  induction table generalizing version with
  | nil => simp [crossCheckVersion]
  | cons e rest ih =>
    obtain ⟨t, pv⟩ := e
    by_cases hc : (t != ty && pv.hasIdVersion id version && !version.is_true) = true
    · have hvt : version.toggle = false := by
        have h' := hc
        simp only [Bool.and_eq_true, Bool.not_eq_true', LitIntBool.is_true] at h'
        exact h'.2
      have h2 : ({ version with toggle := !version.toggle } : LitIntBool).toggle = true := by
        simp [hvt]
      simp [crossCheckVersion, hc,
        crossCheckVersion_flagged ty id _ h2 rest]
    · simp only [crossCheckVersion, if_neg hc]
      exact ih version

/-- When every stored version in a vector is already flagged, visiting it
emits nothing at the stored spans: at most the incoming version's own span
is diagnosed. -/
theorem visitVersions_all_flagged (version : LitIntBool) :
    ∀ vs : List LitIntBool, (∀ v ∈ vs, v.toggle = true) →
      (visitVersions version vs).2.2 = [] ∨
      (visitVersions version vs).2.2 = [⟨version.span, insertMsg⟩]
  | [], _ => Or.inl rfl
  | v :: rest, h => by
    by_cases hl : v.logicalEq version = true
    · have hv : v.toggle = true := h v (by simp)
      right
      simp [visitVersions, hl, LitIntBool.is_true, hv]
    · have hr := visitVersions_all_flagged version rest
        (fun u hu => h u (by simp [hu]))
      simpa [visitVersions, hl] using hr

/-- C6 (counterexample): one kind mapping id 1 ↦ version 3 (span 1),
id 2 ↦ version 4 (span 3) and id 3 ↦ wildcard (span 5). The wildcard entry
conflicts under both other ids, and its span is diagnosed twice — the
emitted spans are `[1, 5, 3, 5]` — refuting "each concrete conflict is
reported exactly once ... a per-entry reported flag suppresses duplicate
diagnostics for an entry already reported". -/
theorem c6_counterexample :
    ((VersionMappings.validateMappings
      [⟨"A", [⟨⟨.number 1, 0, false⟩, [⟨.number 3, 1, false⟩]⟩,
              ⟨⟨.number 2, 2, false⟩, [⟨.number 4, 3, false⟩]⟩,
              ⟨⟨.number 3, 4, false⟩, [⟨.any, 5, false⟩]⟩]⟩]).2).map Diag.span
      = [1, 5, 3, 5] := rfl

/-- C6 (amended): the toggle suppresses duplicates in two places — the
cross-kind loop reports a given entry at most once no matter how many other
kinds conflict with it, and a stored entry that is already flagged is never
re-reported when later insertions conflict with it. But the entry currently
being inserted is re-reported (and its flag flipped back) once per
conflicting id of the same kind, so an entry conflicting under two ids is
reported twice. -/
theorem c6_amended_toggle_suppression :
    (∀ (ty : String) (id version : LitIntBool) (table : KindTable),
      ((crossCheckVersion ty id version table).2).length ≤ 1) ∧
    (∀ (version : LitIntBool) (vs : List LitIntBool),
      (∀ v ∈ vs, v.toggle = true) →
      (visitVersions version vs).2.2 = [] ∨
      (visitVersions version vs).2.2 = [⟨version.span, insertMsg⟩]) ∧
    ((VersionMappings.validateMappings
      [⟨"A", [⟨⟨.number 1, 0, false⟩, [⟨.number 3, 1, false⟩]⟩,
              ⟨⟨.number 2, 2, false⟩, [⟨.number 4, 3, false⟩]⟩,
              ⟨⟨.number 3, 4, false⟩, [⟨.any, 5, false⟩]⟩]⟩]).2).countP
        (fun d => d.span == 5) = 2 :=
  ⟨crossCheckVersion_diags_length_le_one, visitVersions_all_flagged, by decide⟩

/-- Witness for C6 (amended): a version conflicting with two other kinds is
still reported at most once by the cross-kind loop, and a fully flagged
stored vector yields no stored-span diagnostic. -/
theorem c6_amended_witness :
    ((crossCheckVersion "A" ⟨.number 1, 0, false⟩ ⟨.number 5, 1, false⟩
        [("B", ⟨[(.number 1, [⟨.number 5, 2, false⟩])]⟩),
         ("C", ⟨[(.number 1, [⟨.number 5, 3, false⟩])]⟩)]).2).length ≤ 1 ∧
    ((visitVersions ⟨.number 5, 9, false⟩ [⟨.number 5, 4, true⟩]).2.2 = [] ∨
      (visitVersions ⟨.number 5, 9, false⟩ [⟨.number 5, 4, true⟩]).2.2
        = [⟨9, insertMsg⟩]) :=
  ⟨c6_amended_toggle_suppression.1 "A" ⟨.number 1, 0, false⟩ ⟨.number 5, 1, false⟩ _,
   c6_amended_toggle_suppression.2.1 ⟨.number 5, 9, false⟩ _ (by decide)⟩

/-! ## Claim C3 : lemmas -/

/-- `containsVal` decides value membership. -/
theorem containsVal_iff (vs : List LitIntBool) (version : LitIntBool) :
    containsVal vs version = true ↔ version.value ∈ vs.map LitIntBool.value := by
  simp [containsVal, List.any_eq_true]

/-- When every stored key equals the inserted id, the conflict loop is a
no-op: the filter `p != id` skips every entry. -/
theorem insertLoop_own (id version : LitIntBool) :
    ∀ e : Entries, (∀ pr ∈ e, pr.1 = id.value) →
      insertLoop id version e = (e, version, [])
  | [], _ => rfl
  | (p, vs) :: rest, h => by
    have hp : p = id.value := h (p, vs) (by simp)
    simp [insertLoop, hp,
      insertLoop_own id version rest (fun pr hpr => h pr (by simp [hpr]))]

/-- Inserting unflagged versions into a map that stores only the same id
appends exactly the versions whose value is new, with no diagnostics. -/
theorem insert_own (id : LitIntBool) :
    ∀ (vs acc : List LitIntBool), (∀ v ∈ vs, v.toggle = false) →
      PacketVersions.insert ⟨[(id.value, acc)]⟩ id vs
        = (⟨[(id.value, (dedupAppend acc vs).1)]⟩, (dedupAppend acc vs).2, [])
  | [], acc, _ => by simp [PacketVersions.insert, dedupAppend]
  | v :: rest, acc, h => by
    have hv : v.toggle = false := h v (by simp)
    have hr : ∀ u ∈ rest, u.toggle = false := fun u hu => h u (by simp [hu])
    have hloop := insertLoop_own id v [(id.value, acc)] (by simp)
    by_cases hc : containsVal acc v = true
    · simp [PacketVersions.insert, insertOne, hloop, LitIntBool.is_true, hv,
        pushEntry, hc, dedupAppend, insert_own id rest acc hr]
    · simp [PacketVersions.insert, insertOne, hloop, LitIntBool.is_true, hv,
        pushEntry, hc, dedupAppend, insert_own id rest (acc ++ [v]) hr]

/-- Inserting unflagged versions into the empty map: the stored vector and
the returned vector are both given by `dedupAppend`, with no diagnostics;
when the iterator is empty no entry is created at all. -/
theorem insert_from_empty (id : LitIntBool) (vs : List LitIntBool)
    (h : ∀ v ∈ vs, v.toggle = false) :
    PacketVersions.insert ⟨[]⟩ id vs
      = (⟨if vs = [] then [] else [(id.value, (dedupAppend [] vs).1)]⟩,
         (dedupAppend [] vs).2, []) := by
  cases vs with
  | nil => simp [PacketVersions.insert, dedupAppend]
  | cons v rest =>
    have hv : v.toggle = false := h v (by simp)
    have hr : ∀ u ∈ rest, u.toggle = false := fun u hu => h u (by simp [hu])
    simp [PacketVersions.insert, insertOne, insertLoop, LitIntBool.is_true, hv,
      pushEntry, insert_own id rest [v] hr, dedupAppend, containsVal]

/-- Everything `dedupAppend` stores comes from the accumulator or the
input. -/
theorem dedupAppend_fst_subset :
    ∀ (vs acc : List LitIntBool), ∀ a ∈ (dedupAppend acc vs).1, a ∈ acc ∨ a ∈ vs
  | [], acc => by simp [dedupAppend]
  | v :: rest, acc => by
    intro a ha
    by_cases hc : containsVal acc v = true
    · rcases dedupAppend_fst_subset rest acc a (by simpa [dedupAppend, hc] using ha)
        with h | h
      · exact Or.inl h
      · exact Or.inr (by simp [h])
    · rcases dedupAppend_fst_subset rest (acc ++ [v]) a
        (by simpa [dedupAppend, hc] using ha) with h | h
      · rcases List.mem_append.mp h with h' | h'
        · exact Or.inl h'
        · exact Or.inr (by simp at h'; simp [h'])
      · exact Or.inr (by simp [h])

/-- Everything `dedupAppend` reports as newly added comes from the input. -/
theorem dedupAppend_snd_subset :
    ∀ (vs acc : List LitIntBool), ∀ u ∈ (dedupAppend acc vs).2, u ∈ vs
  | [], acc => by simp [dedupAppend]
  | v :: rest, acc => by
    intro u hu
    by_cases hc : containsVal acc v = true
    · exact List.mem_cons_of_mem v
        (dedupAppend_snd_subset rest acc u (by simpa [dedupAppend, hc] using hu))
    · rcases (by simpa [dedupAppend, hc] using hu :
        u = v ∨ u ∈ (dedupAppend (acc ++ [v]) rest).2) with h | h
      · simp [h]
      · exact List.mem_cons_of_mem v (dedupAppend_snd_subset rest (acc ++ [v]) u h)

/-- A value occurs in the vector `dedupAppend` builds iff it occurs in the
accumulator or in the input. -/
theorem dedupAppend_fst_val_mem :
    ∀ (vs acc : List LitIntBool) (x : LitIntValue),
      (∃ a ∈ (dedupAppend acc vs).1, a.value = x) ↔
        (∃ a ∈ acc, a.value = x) ∨ (∃ a ∈ vs, a.value = x)
  | [], acc, x => by simp [dedupAppend]
  | v :: rest, acc, x => by
    by_cases hc : containsVal acc v = true
    · rw [show (dedupAppend acc (v :: rest)).1 = (dedupAppend acc rest).1 by
        simp [dedupAppend, hc]]
      rw [dedupAppend_fst_val_mem rest acc x]
      constructor
      · rintro (h | h)
        · exact Or.inl h
        · exact Or.inr ⟨h.choose, by simp [h.choose_spec.1], h.choose_spec.2⟩
      · rintro (h | ⟨a, ha, hax⟩)
        · exact Or.inl h
        · rcases List.mem_cons.mp ha with h' | h'
          · subst h'
            exact Or.inl (by
              rcases (containsVal_iff acc a).mp hc with hmem
              rcases List.mem_map.mp (by simpa [hax] using hmem) with ⟨b, hb, hbx⟩
              exact ⟨b, hb, hbx⟩)
          · exact Or.inr ⟨a, h', hax⟩
    · rw [show (dedupAppend acc (v :: rest)).1 = (dedupAppend (acc ++ [v]) rest).1 by
        simp [dedupAppend, hc]]
      rw [dedupAppend_fst_val_mem rest (acc ++ [v]) x]
      constructor
      · rintro (⟨a, ha, hax⟩ | h)
        · rcases List.mem_append.mp ha with h' | h'
          · exact Or.inl ⟨a, h', hax⟩
          · simp at h'
            subst h'
            exact Or.inr ⟨a, by simp, hax⟩
        · exact Or.inr ⟨h.choose, by simp [h.choose_spec.1], h.choose_spec.2⟩
      · rintro (h | ⟨a, ha, hax⟩)
        · exact Or.inl ⟨h.choose, by simp [h.choose_spec.1], h.choose_spec.2⟩
        · rcases List.mem_cons.mp ha with h' | h'
          · subst h'
            exact Or.inl ⟨a, by simp, hax⟩
          · exact Or.inr ⟨a, h', hax⟩

/-- A value occurs among the versions `dedupAppend` newly adds iff it occurs
in the input and not in the accumulator. -/
theorem dedupAppend_snd_val_mem :
    ∀ (vs acc : List LitIntBool) (x : LitIntValue),
      (∃ u ∈ (dedupAppend acc vs).2, u.value = x) ↔
        (∃ u ∈ vs, u.value = x) ∧ (∀ a ∈ acc, a.value ≠ x)
  | [], acc, x => by simp [dedupAppend]
  | v :: rest, acc, x => by
    by_cases hc : containsVal acc v = true
    · rw [show (dedupAppend acc (v :: rest)).2 = (dedupAppend acc rest).2 by
        simp [dedupAppend, hc]]
      rw [dedupAppend_snd_val_mem rest acc x]
      constructor
      · rintro ⟨⟨u, hu, hux⟩, hacc⟩
        exact ⟨⟨u, by simp [hu], hux⟩, hacc⟩
      · rintro ⟨⟨u, hu, hux⟩, hacc⟩
        rcases List.mem_cons.mp hu with h' | h'
        · subst h'
          exfalso
          rcases (containsVal_iff acc u).mp hc with hmem
          rcases List.mem_map.mp hmem with ⟨b, hb, hbx⟩
          exact hacc b hb (by rw [hbx, hux])
        · exact ⟨⟨u, h', hux⟩, hacc⟩
    · rw [show (dedupAppend acc (v :: rest)).2
          = v :: (dedupAppend (acc ++ [v]) rest).2 by simp [dedupAppend, hc]]
      have hnc : v.value ∉ acc.map LitIntBool.value := fun hmem =>
        hc ((containsVal_iff acc v).mpr hmem)
      constructor
      · rintro ⟨u, hu, hux⟩
        rcases List.mem_cons.mp hu with h' | h'
        · subst h'
          refine ⟨⟨u, by simp, hux⟩, fun a ha hax => ?_⟩
          exact hnc (by rw [hux, ← hax]; exact List.mem_map_of_mem _ ha)
        · rcases (dedupAppend_snd_val_mem rest (acc ++ [v]) x).mp ⟨u, h', hux⟩
            with ⟨hex, hacc⟩
          exact ⟨⟨hex.choose, by simp [hex.choose_spec.1], hex.choose_spec.2⟩,
            fun a ha => hacc a (by simp [ha])⟩
      · rintro ⟨⟨u, hu, hux⟩, hacc⟩
        by_cases hvx : v.value = x
        · exact ⟨v, by simp, hvx⟩
        · rcases List.mem_cons.mp hu with h' | h'
          · exact absurd (h' ▸ hux) hvx
          · have := (dedupAppend_snd_val_mem rest (acc ++ [v]) x).mpr
              ⟨⟨u, h', hux⟩, fun a ha => by
                rcases List.mem_append.mp ha with h'' | h''
                · exact hacc a h''
                · simp at h''; subst h''; exact hvx⟩
            exact ⟨this.choose, by simp [this.choose_spec.1], this.choose_spec.2⟩

/-- The cross-kind loop over a table holding only the kind itself emits
nothing: the `t != ty` filter drops the only entry. -/
theorem crossCheckAll_self (ty : String) (id : LitIntBool) (pv : PacketVersions) :
    ∀ vs : List LitIntBool, crossCheckAll ty id [(ty, pv)] vs = []
  | [] => rfl
  | v :: rest => by
    simp [crossCheckAll, crossCheckVersion, crossCheckAll_self ty id pv rest]

/-- On two explicit numbers, `logical_eq` is value equality. -/
theorem logicalEq_numbers_iff (a u : LitIntBool) (m k : Int)
    (ha : a.value = .number m) (hu : u.value = .number k) :
    (a.logicalEq u = true) ↔ a.value = u.value := by
  simp [LitIntBool.logicalEq, ha, hu]

/-- `has_id_version` on a single-entry map under the same id value, for
explicit numbers, is value membership of the version. -/
theorem hasIdVersion_single_iff (idA idB u : LitIntBool) (la : List LitIntBool)
    (hid : idA.value = idB.value) (k : Int) (hu : u.value = .number k)
    (hla : ∀ a ∈ la, ∃ m : Int, a.value = .number m) :
    (PacketVersions.hasIdVersion ⟨[(idA.value, la)]⟩ idB u = true)
      ↔ ∃ a ∈ la, a.value = u.value := by
  simp only [PacketVersions.hasIdVersion, List.any_cons, List.any_nil,
    Bool.or_false, hid, beq_self_eq_true, Bool.true_and, List.any_eq_true]
  constructor
  · rintro ⟨a, ha, hl⟩
    obtain ⟨m, hm⟩ := hla a ha
    exact ⟨a, ha, (logicalEq_numbers_iff a u m k hm hu).mp hl⟩
  · rintro ⟨a, ha, hv⟩
    obtain ⟨m, hm⟩ := hla a ha
    exact ⟨a, ha, (logicalEq_numbers_iff a u m k hm hu).mpr hv⟩

/-- The cross-kind loop over a two-kind table whose second kind is the
current one: an unflagged version yields exactly one diagnostic when the
other kind has a matching id/version, and none otherwise. -/
theorem crossCheckVersion_pair (tyA tyB : String) (idB : LitIntBool)
    (pvA pvB : PacketVersions) (u : LitIntBool)
    (hty : tyA ≠ tyB) (hu : u.toggle = false) :
    (crossCheckVersion tyB idB u [(tyA, pvA), (tyB, pvB)]).2
      = if pvA.hasIdVersion idB u = true then [⟨u.span, validateMsg⟩] else [] := by
  by_cases hc : pvA.hasIdVersion idB u = true <;>
    simp [crossCheckVersion, bne_iff_ne, hty, hc, LitIntBool.is_true, hu]

/-- Over such a two-kind table, the cross-kind loop diagnoses something iff
some newly inserted version matches the other kind's id/version table. -/
theorem crossCheckAll_pair_ne_nil (tyA tyB : String) (idB : LitIntBool)
    (pvA pvB : PacketVersions) (hty : tyA ≠ tyB) :
    ∀ uB : List LitIntBool, (∀ u ∈ uB, u.toggle = false) →
      (crossCheckAll tyB idB [(tyA, pvA), (tyB, pvB)] uB ≠ [] ↔
        ∃ u ∈ uB, pvA.hasIdVersion idB u = true)
  | [], _ => by simp [crossCheckAll]
  | u :: rest, h => by
    have hu : u.toggle = false := h u (by simp)
    have hr := crossCheckAll_pair_ne_nil tyA tyB idB pvA pvB hty rest
      (fun v hv => h v (by simp [hv]))
    have hstep : crossCheckAll tyB idB [(tyA, pvA), (tyB, pvB)] (u :: rest)
        = (crossCheckVersion tyB idB u [(tyA, pvA), (tyB, pvB)]).2
          ++ crossCheckAll tyB idB [(tyA, pvA), (tyB, pvB)] rest := rfl
    rw [hstep, crossCheckVersion_pair tyA tyB idB pvA pvB u hty hu]
    by_cases hc : pvA.hasIdVersion idB u = true
    · simp only [if_pos hc]
      constructor
      · intro _
        exact ⟨u, by simp, hc⟩
      · intro _
        simp
    · simp only [if_neg hc, List.nil_append]
      rw [hr]
      constructor
      · rintro ⟨v, hv, hpv⟩
        exact ⟨v, by simp [hv], hpv⟩
      · rintro ⟨v, hv, hpv⟩
        rcases List.mem_cons.mp hv with h' | h'
        · exact absurd (h' ▸ hpv) hc
        · exact ⟨v, h', hpv⟩

/-- Full reduction of `validate_mappings` on two kinds with one id mapping
each: the only possible diagnostics come from the cross-kind check of the
second kind's newly inserted versions. -/
theorem validate_two_kinds_diags (tyA tyB : String) (idA idB : LitIntBool)
    (va vb : List LitIntBool) (hty : tyA ≠ tyB)
    (hvaT : ∀ v ∈ va, v.toggle = false) (hvbT : ∀ v ∈ vb, v.toggle = false) :
    (VersionMappings.validateMappings [⟨tyA, [⟨idA, va⟩]⟩, ⟨tyB, [⟨idB, vb⟩]⟩]).2
      = crossCheckAll tyB idB
          [(tyA, ⟨if va = [] then [] else [(idA.value, (dedupAppend [] va).1)]⟩),
           (tyB, ⟨if vb = [] then [] else [(idB.value, (dedupAppend [] vb).1)]⟩)]
          ((dedupAppend [] vb).2) := by
  have h1 := insert_from_empty idA va hvaT
  have h2 := insert_from_empty idB vb hvbT
  have htAB : (tyA == tyB) = false := by simp [hty]
  simp [VersionMappings.validateMappings, validateAll, validateKind,
    validateOne, lookupKind, htAB, h1, h2, setKind, crossCheckAll_self]

/-- C3: for two distinct packet kinds each claiming the same numeric id for
an explicit (finite, wildcard-free) version set, validation emits a conflict
diagnostic iff the two version sets share a value; disjoint sets produce no
diagnostic. -/
theorem c3_shared_id_conflict_iff_overlap (tyA tyB : String) (idA idB : LitIntBool)
    (va vb : List LitIntBool)
    (hty : tyA ≠ tyB) (hid : idA.value = idB.value)
    (hva : ∀ a ∈ va, (∃ n : Int, a.value = .number n) ∧ a.toggle = false)
    (hvb : ∀ b ∈ vb, (∃ n : Int, b.value = .number n) ∧ b.toggle = false) :
    ((VersionMappings.validateMappings
        [⟨tyA, [⟨idA, va⟩]⟩, ⟨tyB, [⟨idB, vb⟩]⟩]).2 ≠ []) ↔
      ∃ x : LitIntValue, (∃ a ∈ va, a.value = x) ∧ (∃ b ∈ vb, b.value = x) := by
  have hvaT : ∀ v ∈ va, v.toggle = false := fun v hv => (hva v hv).2
  have hvbT : ∀ v ∈ vb, v.toggle = false := fun v hv => (hvb v hv).2
  rw [validate_two_kinds_diags tyA tyB idA idB va vb hty hvaT hvbT]
  have huB : ∀ u ∈ (dedupAppend [] vb).2, u.toggle = false :=
    fun u hu => hvbT u (dedupAppend_snd_subset vb [] u hu)
  rw [crossCheckAll_pair_ne_nil tyA tyB idB _ _ hty _ huB]
  cases va with
  | nil => simp [PacketVersions.hasIdVersion]
  | cons a0 va' =>
    have hne : (a0 :: va' : List LitIntBool) ≠ [] := by simp
    rw [if_neg hne]
    have hlaNum : ∀ a ∈ (dedupAppend [] (a0 :: va')).1,
        ∃ m : Int, a.value = .number m := by
      intro a ha
      rcases dedupAppend_fst_subset (a0 :: va') [] a ha with h | h
      · exact absurd h (List.not_mem_nil a)
      · exact (hva a h).1
    constructor
    · rintro ⟨u, hu, hmatch⟩
      obtain ⟨k, hk⟩ := (hvb u (dedupAppend_snd_subset vb [] u hu)).1
      obtain ⟨a, haMem, hax⟩ :=
        (hasIdVersion_single_iff idA idB u _ hid k hk hlaNum).mp hmatch
      refine ⟨u.value, ?_, ⟨u, dedupAppend_snd_subset vb [] u hu, rfl⟩⟩
      rcases (dedupAppend_fst_val_mem (a0 :: va') [] u.value).mp
        ⟨a, haMem, hax⟩ with h | h
      · simp at h
      · exact h
    · rintro ⟨x, hA, hB⟩
      obtain ⟨u, hu, hux⟩ : ∃ u ∈ (dedupAppend [] vb).2, u.value = x := by
        rw [dedupAppend_snd_val_mem vb [] x]
        exact ⟨hB, by simp⟩
      obtain ⟨k, hk⟩ := (hvb u (dedupAppend_snd_subset vb [] u hu)).1
      refine ⟨u, hu, (hasIdVersion_single_iff idA idB u _ hid k hk hlaNum).mpr ?_⟩
      rw [hux]
      rw [dedupAppend_fst_val_mem (a0 :: va') [] x]
      exact Or.inr hA

/-- Witness for C3, in both directions of the iff: kinds sharing id 1 with
overlapping sets {5} and {5} diagnose a conflict, and with the disjoint
sets {1,2} and {3,4} they do not. -/
theorem c3_witness :
    (((VersionMappings.validateMappings
        [⟨"A", [⟨⟨.number 1, 0, false⟩, [⟨.number 5, 1, false⟩]⟩]⟩,
         ⟨"B", [⟨⟨.number 1, 2, false⟩, [⟨.number 5, 3, false⟩]⟩]⟩]).2 ≠ []) ∧
     ¬((VersionMappings.validateMappings
        [⟨"A", [⟨⟨.number 1, 0, false⟩,
                 [⟨.number 1, 1, false⟩, ⟨.number 2, 2, false⟩]⟩]⟩,
         ⟨"B", [⟨⟨.number 1, 3, false⟩,
                 [⟨.number 3, 4, false⟩, ⟨.number 4, 5, false⟩]⟩]⟩]).2 ≠ [])) := by
  constructor
  · exact (c3_shared_id_conflict_iff_overlap "A" "B"
      ⟨.number 1, 0, false⟩ ⟨.number 1, 2, false⟩
      [⟨.number 5, 1, false⟩] [⟨.number 5, 3, false⟩]
      (by decide) rfl (by simp) (by simp)).mpr
      ⟨.number 5, ⟨⟨.number 5, 1, false⟩, by simp, rfl⟩,
        ⟨⟨.number 5, 3, false⟩, by simp, rfl⟩⟩
  · have hA : ∀ a ∈ [(⟨.number 1, 1, false⟩ : LitIntBool), ⟨.number 2, 2, false⟩],
        (∃ n : Int, a.value = .number n) ∧ a.toggle = false := by
      intro a ha
      rcases List.mem_cons.mp ha with rfl | ha'
      · exact ⟨⟨1, rfl⟩, rfl⟩
      rcases List.mem_cons.mp ha' with rfl | ha''
      · exact ⟨⟨2, rfl⟩, rfl⟩
      · exact absurd ha'' (List.not_mem_nil a)
    have hB : ∀ b ∈ [(⟨.number 3, 4, false⟩ : LitIntBool), ⟨.number 4, 5, false⟩],
        (∃ n : Int, b.value = .number n) ∧ b.toggle = false := by
      intro b hb
      rcases List.mem_cons.mp hb with rfl | hb'
      · exact ⟨⟨3, rfl⟩, rfl⟩
      rcases List.mem_cons.mp hb' with rfl | hb''
      · exact ⟨⟨4, rfl⟩, rfl⟩
      · exact absurd hb'' (List.not_mem_nil b)
    intro hcontra
    rcases (c3_shared_id_conflict_iff_overlap "A" "B"
      ⟨.number 1, 0, false⟩ ⟨.number 1, 3, false⟩
      [⟨.number 1, 1, false⟩, ⟨.number 2, 2, false⟩]
      [⟨.number 3, 4, false⟩, ⟨.number 4, 5, false⟩]
      (by decide) rfl hA hB).mp hcontra
      with ⟨x, ⟨a, ha, hax⟩, ⟨b, hb, hbx⟩⟩
    have hxa : x = .number 1 ∨ x = .number 2 := by
      rcases List.mem_cons.mp ha with rfl | ha'
      · exact Or.inl hax.symm
      rcases List.mem_cons.mp ha' with rfl | ha''
      · exact Or.inr hax.symm
      · exact absurd ha'' (List.not_mem_nil a)
    have hxb : x = .number 3 ∨ x = .number 4 := by
      rcases List.mem_cons.mp hb with rfl | hb'
      · exact Or.inl hbx.symm
      rcases List.mem_cons.mp hb' with rfl | hb''
      · exact Or.inr hbx.symm
      · exact absurd hb'' (List.not_mem_nil b)
    rcases hxa with rfl | rfl <;> rcases hxb with h | h <;>
      exact absurd h (by decide)

/-! ## Claim C9 : lemmas -/

/-- Visiting a stored vector only flips toggles: the stored values are
unchanged. -/
theorem visitVersions_fst_map (version : LitIntBool) :
    ∀ vs : List LitIntBool,
      ((visitVersions version vs).1).map LitIntBool.value
        = vs.map LitIntBool.value
  | [] => rfl
  | v :: rest => by
    by_cases hl : v.logicalEq version = true
    · by_cases ht : v.is_true = true <;> simp [visitVersions, hl, ht]
    · simp [visitVersions, hl, visitVersions_fst_map version rest]

/-- The conflict loop leaves the entry stored under the inserted id
untouched (the `p != id` filter skips it). -/
theorem insertLoop_entryVals (id : LitIntBool) :
    ∀ (version : LitIntBool) (e : Entries),
      entryVals id.value (insertLoop id version e).1 = entryVals id.value e
  | _, [] => rfl
  | version, (p, vs) :: rest => by
    by_cases hp : (p == id.value) = true
    · simp [insertLoop, entryVals, hp]
    · simp [insertLoop, entryVals, hp,
        insertLoop_entryVals id (visitVersions version vs).2.1 rest]

/-- The conflict loop preserves every entry's stored values (it only flips
toggles). -/
theorem insertLoop_entryVals_map (id : LitIntBool) :
    ∀ (version : LitIntBool) (e : Entries) (q : LitIntValue),
      ((entryVals q (insertLoop id version e).1).map LitIntBool.value)
        = (entryVals q e).map LitIntBool.value
  | _, [], _ => rfl
  | version, (p, vs) :: rest, q => by
    by_cases hp : (p == id.value) = true
    · by_cases hq : (p == q) = true
      · simp [insertLoop, entryVals, hp, hq]
      · simp [insertLoop, entryVals, hp, hq,
          insertLoop_entryVals_map id version rest q]
    · by_cases hq : (p == q) = true
      · simp [insertLoop, entryVals, hp, hq, visitVersions_fst_map]
      · simp [insertLoop, entryVals, hp, hq,
          insertLoop_entryVals_map id (visitVersions version vs).2.1 rest q]

/-- The conflict loop preserves the no-duplicate-values invariant of every
entry. -/
theorem insertLoop_valsNodup (id : LitIntBool) :
    ∀ (version : LitIntBool) (e : Entries),
      (∀ pr ∈ e, ((pr.2).map LitIntBool.value).Nodup) →
      ∀ pr ∈ (insertLoop id version e).1, ((pr.2).map LitIntBool.value).Nodup
  | _, [], _ => by simp [insertLoop]
  | version, (p, vs) :: rest, h => by
    have hhead : (vs.map LitIntBool.value).Nodup := h (p, vs) (by simp)
    have htail : ∀ pr ∈ rest, ((pr.2).map LitIntBool.value).Nodup :=
      fun pr hpr => h pr (by simp [hpr])
    intro pr hpr
    by_cases hp : (p == id.value) = true
    · rcases List.mem_cons.mp (by simpa [insertLoop, hp] using hpr) with h' | h'
      · subst h'; exact hhead
      · exact insertLoop_valsNodup id version rest htail pr h'
    · rcases List.mem_cons.mp (by simpa [insertLoop, hp] using hpr) with h' | h'
      · subst h'
        simpa [visitVersions_fst_map] using hhead
      · exact insertLoop_valsNodup id (visitVersions version vs).2.1 rest htail pr h'

/-- `pushEntry` preserves the no-duplicate-values invariant: a version is
appended only after the `contains` check rules its value out. -/
theorem pushEntry_valsNodup (id version : LitIntBool) :
    ∀ e : Entries, (∀ pr ∈ e, ((pr.2).map LitIntBool.value).Nodup) →
      ∀ pr ∈ (pushEntry id version e).1, ((pr.2).map LitIntBool.value).Nodup
  | [], _ => by
    intro pr hpr
    have h' : pr = (id.value, [version]) := by simpa [pushEntry] using hpr
    subst h'; simp
  | (p, vs) :: rest, h => by
    have hhead : (vs.map LitIntBool.value).Nodup := h (p, vs) (by simp)
    have htail : ∀ pr ∈ rest, ((pr.2).map LitIntBool.value).Nodup :=
      fun pr hpr => h pr (by simp [hpr])
    intro pr hpr
    by_cases hp : (p == id.value) = true
    · by_cases hc : containsVal vs version = true
      · rcases List.mem_cons.mp (by simpa [pushEntry, hp, hc] using hpr) with h' | h'
        · subst h'; exact hhead
        · exact htail pr h'
      · rcases List.mem_cons.mp (by simpa [pushEntry, hp, hc] using hpr) with h' | h'
        · subst h'
          have hnc : version.value ∉ vs.map LitIntBool.value :=
            fun hmem => hc ((containsVal_iff vs version).mpr hmem)
          simp [List.nodup_append, hhead, hnc]
        · exact htail pr h'
    · rcases List.mem_cons.mp (by simpa [pushEntry, hp] using hpr) with h' | h'
      · subst h'; exact hhead
      · exact pushEntry_valsNodup id version rest htail pr h'

/-- What `pushEntry` stores under the inserted id: the previous vector plus
the version exactly when it reports having pushed it. -/
theorem pushEntry_entryVals (id version : LitIntBool) :
    ∀ e : Entries, entryVals id.value (pushEntry id version e).1
      = entryVals id.value e
        ++ (if (pushEntry id version e).2 then [version] else [])
  | [] => by simp [pushEntry, entryVals]
  | (p, vs) :: rest => by
    by_cases hp : (p == id.value) = true
    · by_cases hc : containsVal vs version = true <;>
        simp [pushEntry, entryVals, hp, hc]
    · simp [pushEntry, entryVals, hp, pushEntry_entryVals id version rest]

/-- `pushEntry` never touches an entry stored under a different id. -/
theorem pushEntry_entryVals_other (id version : LitIntBool) (q : LitIntValue)
    (hq : (id.value == q) = false) :
    ∀ e : Entries, entryVals q (pushEntry id version e).1 = entryVals q e
  | [] => by simp [pushEntry, entryVals, hq]
  | (p, vs) :: rest => by
    by_cases hp : (p == id.value) = true
    · have hpq : (p == q) = false := by
        have : p = id.value := by simpa using hp
        simpa [this] using hq
      by_cases hc : containsVal vs version = true <;>
        simp [pushEntry, entryVals, hp, hc, hpq]
    · simp [pushEntry, entryVals, hp, pushEntry_entryVals_other id version q hq rest]

/-- One `insertOne` step: the invariant is preserved, the entry under the
inserted id grows by exactly the reported result, and every other entry
keeps its values. -/
theorem insertOne_spec (id version : LitIntBool) (e : Entries)
    (h : ∀ pr ∈ e, ((pr.2).map LitIntBool.value).Nodup) :
    (∀ pr ∈ (insertOne id version e).1, ((pr.2).map LitIntBool.value).Nodup) ∧
    (entryVals id.value (insertOne id version e).1
      = entryVals id.value e ++ (insertOne id version e).2.1) ∧
    (∀ q : LitIntValue, (id.value == q) = false →
      (entryVals q (insertOne id version e).1).map LitIntBool.value
        = (entryVals q e).map LitIntBool.value) := by
  have hL := insertLoop_valsNodup id version e h
  by_cases ht : (insertLoop id version e).2.1.is_true = true
  · refine ⟨?_, ?_, ?_⟩
    · simpa [insertOne, ht] using hL
    · simp [insertOne, ht, insertLoop_entryVals]
    · intro q hq
      simp [insertOne, ht, insertLoop_entryVals_map]
  · refine ⟨?_, ?_, ?_⟩
    · have hpu := pushEntry_valsNodup id (insertLoop id version e).2.1
        (insertLoop id version e).1 hL
      intro pr hpr
      exact hpu pr (by simpa [insertOne, ht] using hpr)
    · have hpe := pushEntry_entryVals id (insertLoop id version e).2.1
        (insertLoop id version e).1
      simp only [insertOne, Bool.not_eq_true] at ht ⊢
      rw [ht]
      simpa [insertLoop_entryVals] using hpe
    · intro q hq
      have hpo := pushEntry_entryVals_other id (insertLoop id version e).2.1 q hq
        (insertLoop id version e).1
      simp only [insertOne, Bool.not_eq_true] at ht ⊢
      rw [ht]
      simp [hpo, insertLoop_entryVals_map]

/-- `PacketVersions::insert` over a whole iterator: the invariant is
preserved, the vector under the inserted id is extended by exactly the
returned `result`, and every other id's stored values are untouched. -/
theorem insert_spec (id : LitIntBool) :
    ∀ (vs : List LitIntBool) (e : Entries),
      (∀ pr ∈ e, ((pr.2).map LitIntBool.value).Nodup) →
      (∀ pr ∈ (PacketVersions.insert ⟨e⟩ id vs).1.mappings,
        ((pr.2).map LitIntBool.value).Nodup) ∧
      (entryVals id.value (PacketVersions.insert ⟨e⟩ id vs).1.mappings
        = entryVals id.value e ++ (PacketVersions.insert ⟨e⟩ id vs).2.1) ∧
      (∀ q : LitIntValue, (id.value == q) = false →
        (entryVals q (PacketVersions.insert ⟨e⟩ id vs).1.mappings).map LitIntBool.value
          = (entryVals q e).map LitIntBool.value)
  | [], e, h => ⟨h, by simp [PacketVersions.insert], by
      intro q hq; simp [PacketVersions.insert]⟩
  | v :: rest, e, h => by
    have h1 := insertOne_spec id v e h
    have h2 := insert_spec id rest (insertOne id v e).1 h1.1
    have hshape : PacketVersions.insert ⟨e⟩ id (v :: rest)
        = ((PacketVersions.insert ⟨(insertOne id v e).1⟩ id rest).1,
           (insertOne id v e).2.1
             ++ (PacketVersions.insert ⟨(insertOne id v e).1⟩ id rest).2.1,
           (insertOne id v e).2.2
             ++ (PacketVersions.insert ⟨(insertOne id v e).1⟩ id rest).2.2) := rfl
    refine ⟨?_, ?_, ?_⟩
    · intro pr hpr
      exact h2.1 pr (by rw [hshape] at hpr; exact hpr)
    · rw [hshape]
      show entryVals id.value (PacketVersions.insert ⟨(insertOne id v e).1⟩ id rest).1.mappings = _
      rw [h2.2.1, h1.2.1, List.append_assoc]
    · intro q hq
      rw [hshape]
      show (entryVals q (PacketVersions.insert ⟨(insertOne id v e).1⟩ id rest).1.mappings).map LitIntBool.value = _
      rw [h2.2.2 q hq, h1.2.2 q hq]

/-- C9: `PacketVersions::insert` never stores a duplicate (id, version)
pair — the no-duplicate-values invariant of every entry is preserved — and
the vector it returns is exactly what the call appended under the inserted
id (conflicting or already-present versions are omitted); entries under
other ids keep their values. -/
theorem c9_insert_nodup_and_exact_result (id : LitIntBool) (vs : List LitIntBool)
    (e : Entries) (h : valsNodup e) :
    valsNodup (PacketVersions.insert ⟨e⟩ id vs).1.mappings ∧
    (entryVals id.value (PacketVersions.insert ⟨e⟩ id vs).1.mappings
      = entryVals id.value e ++ (PacketVersions.insert ⟨e⟩ id vs).2.1) ∧
    (∀ q : LitIntValue, (id.value == q) = false →
      (entryVals q (PacketVersions.insert ⟨e⟩ id vs).1.mappings).map LitIntBool.value
        = (entryVals q e).map LitIntBool.value) :=
  insert_spec id vs e h

/-- Witness for C9: inserting `[7, 8, 8]` under id 1 into a map already
holding `7` under id 1 adds exactly the single new `8`. -/
theorem c9_witness :
    valsNodup (PacketVersions.insert
      ⟨[(.number 1, [⟨.number 7, 0, false⟩])]⟩ ⟨.number 1, 9, false⟩
      [⟨.number 7, 1, false⟩, ⟨.number 8, 2, false⟩,
       ⟨.number 8, 3, false⟩]).1.mappings ∧
    (entryVals (LitIntValue.number 1) (PacketVersions.insert
      ⟨[(.number 1, [⟨.number 7, 0, false⟩])]⟩ ⟨.number 1, 9, false⟩
      [⟨.number 7, 1, false⟩, ⟨.number 8, 2, false⟩,
       ⟨.number 8, 3, false⟩]).1.mappings
      = entryVals (LitIntValue.number 1) [(.number 1, [⟨.number 7, 0, false⟩])]
        ++ (PacketVersions.insert
          ⟨[(.number 1, [⟨.number 7, 0, false⟩])]⟩ ⟨.number 1, 9, false⟩
          [⟨.number 7, 1, false⟩, ⟨.number 8, 2, false⟩,
           ⟨.number 8, 3, false⟩]).2.1) ∧
    (∀ q : LitIntValue, ((LitIntValue.number 1) == q) = false →
      (entryVals q (PacketVersions.insert
        ⟨[(.number 1, [⟨.number 7, 0, false⟩])]⟩ ⟨.number 1, 9, false⟩
        [⟨.number 7, 1, false⟩, ⟨.number 8, 2, false⟩,
         ⟨.number 8, 3, false⟩]).1.mappings).map LitIntBool.value
        = (entryVals q [(.number 1, [⟨.number 7, 0, false⟩])]).map LitIntBool.value) :=
  c9_insert_nodup_and_exact_result ⟨.number 1, 9, false⟩
    [⟨.number 7, 1, false⟩, ⟨.number 8, 2, false⟩, ⟨.number 8, 3, false⟩]
    [(.number 1, [⟨.number 7, 0, false⟩])] (by simp [valsNodup])
